import Mathlib

/-!
# Verification of the `bytes-lit` literal encoder

Shallow embedding of the three source functions of the repository:

* `bytes2` (src/lib.rs)     — the exact-width policy, public `bytes!` macro body;
* `bytes`  (src/bytes.rs)   — the second exact-width implementation;
* `bytesmin` (src/bytesmin.rs) — the restricted minimal-width policy.

An integer literal token (a `syn::LitInt` that already passed syn's parser) is
modelled by the structure `Lit`: an optional leading minus sign, a base
(detected from the two-character prefix `0x`/`0b`/`0o`, or decimal when
absent), the digit body as spelled (possibly containing `_` separators) and a
trailing alphanumeric type suffix.  `Lit.raw` rebuilds the exact source
spelling that Rust's `lit.to_string()` returns; the encoder functions below
operate on that raw character list precisely as the Rust code operates on the
raw string.

Library primitives that are not part of the repository are modelled from
their documented behaviour:

* `syn::LitInt::base10_digits` composed with `num_bigint::BigUint::from_str`
  (`biguintFromBase10Digits`): `base10_digits` renders the literal's numeric
  value in base 10, keeping a leading `-` for negative literals;
  `BigUint::from_str` fails exactly on such a minus sign and otherwise yields
  the value.
* `BigUint::bits` (`bitLen`): 0 for zero, otherwise ⌊log₂ n⌋ + 1, i.e. the
  length of the base-2 digit expansion.
* `BigUint::to_bytes_be` (`toBytesBe`): the minimal big-endian base-256
  expansion, with the documented special case that zero yields `[0]`.

Machine-integer overflow of `usize` arithmetic (`checked_mul`/`checked_add`
guards in the source) cannot occur for any literal that fits in memory and is
modelled with unbounded `Nat`, as the spec's §7 prescribes.

A Rust `panic` (the `.expect(..)` calls and a possible out-of-bounds slice in
the assembly step) is a distinct outcome from a returned compile error, so the
result type `Outcome` separates `ok`, `err` (classified `syn::Error` with its
message) and `panic`.
-/

/-- The four literal bases, as classified by the two-character prefix. -/
inductive Base where
  | decimal
  | hex
  | octal
  | binary
deriving DecidableEq, Repr

/-- The spelled base prefix: `0x`, `0b`, `0o`, or nothing for decimal. -/
def Base.prefixChars : Base → List Char
  | .decimal => []
  | .hex => ['0', 'x']
  | .octal => ['0', 'o']
  | .binary => ['0', 'b']

/-- Radix of each base. -/
def Base.radix : Base → Nat
  | .decimal => 10
  | .hex => 16
  | .octal => 8
  | .binary => 2

/-- The `form` string the source attaches to each base in error messages. -/
def Base.formName : Base → String
  | .decimal => "decimal"
  | .hex => "hex"
  | .octal => "octal"
  | .binary => "binary"

/-- Bits contributed by one leading zero digit: `Some(4)` for hex, `Some(1)`
for binary, `None` for octal and decimal — exactly the middle component of the
source's base-classification match. -/
def Base.bitsPerDigit : Base → Option Nat
  | .decimal => none
  | .hex => some 4
  | .octal => none
  | .binary => some 1

/-- Numeric value of one digit character (0-9, a-f, A-F); 0 for anything
else.  Mirrors the positional value used by `BigUint`'s radix parser. -/
def digitVal (c : Char) : Nat :=
  if 48 ≤ c.toNat ∧ c.toNat ≤ 57 then c.toNat - 48
  else if 97 ≤ c.toNat ∧ c.toNat ≤ 102 then c.toNat - 87
  else if 65 ≤ c.toNat ∧ c.toNat ≤ 70 then c.toNat - 55
  else 0

/-- Whether `c` is a valid digit character of base `b` (hex digits may be
upper or lower case). -/
def isDigitOf (b : Base) (c : Char) : Bool :=
  match b with
  | .decimal => 48 ≤ c.toNat && c.toNat ≤ 57
  | .hex =>
      (48 ≤ c.toNat && c.toNat ≤ 57) || (97 ≤ c.toNat && c.toNat ≤ 102) ||
        (65 ≤ c.toNat && c.toNat ≤ 70)
  | .octal => 48 ≤ c.toNat && c.toNat ≤ 55
  | .binary => 48 ≤ c.toNat && c.toNat ≤ 49

/-- A syntactically valid integer literal token (`syn::LitInt`):
sign, base, spelled digit body (may contain `_` separators) and trailing
type suffix. -/
structure Lit where
  neg : Bool
  base : Base
  body : List Char
  suffix : List Char
deriving DecidableEq, Repr

/-- The exact source spelling, as returned by Rust's `lit.to_string()`. -/
def Lit.raw (l : Lit) : List Char :=
  (if l.neg then ['-'] else []) ++ l.base.prefixChars ++ l.body ++ l.suffix

/-- Digit body with the `_` separators removed. -/
def Lit.bodyD (l : Lit) : List Char :=
  l.body.filter (fun c => !(c == '_'))

/-- The magnitude spelled by the digit body (separators stripped), in the
literal's base.  This is the value that `syn` validated and that
`base10_digits` re-renders in base 10. -/
def Lit.val (l : Lit) : Nat :=
  l.bodyD.foldl (fun a c => a * l.base.radix + digitVal c) 0

/-- Well-formedness of a literal token, i.e. what `syn::LitInt`'s parser
guarantees about a token it accepted:

* the digit run (separators aside) is non-empty;
* every body character is a separator or a digit of the base;
* the suffix is alphanumeric, its first character is a letter that is not a
  digit character of the base (otherwise the lexer would have consumed it as
  a digit);
* a decimal token whose digit body is exactly `0` cannot carry a suffix
  starting with `x`, `b` or `o` — the lexer would have read a base prefix
  instead. -/
structure Lit.WF (l : Lit) : Prop where
  body_ne : l.bodyD ≠ []
  body_digits : ∀ c ∈ l.body, c = '_' ∨ isDigitOf l.base c = true
  suffix_alnum : ∀ c ∈ l.suffix, (c.isAlpha || c.isDigit) = true
  suffix_head : ∀ c ∈ l.suffix.head?, c.isAlpha = true ∧ isDigitOf l.base c = false
  decimal_noconfuse : l.base = .decimal → l.bodyD = ['0'] →
    ∀ c ∈ l.suffix.head?, c ≠ 'x' ∧ c ≠ 'b' ∧ c ≠ 'o'

/-- Result of one encoder call: a generated byte array, a classified
`syn::Error` carrying its message, or a Rust panic (the argument is the
`expect`/panic message). -/
inductive Outcome where
  | ok (bytes : List Nat)
  | err (msg : String)
  | panic (msg : String)
deriving DecidableEq, Repr

/-- Modelled from the documented behaviour of `syn::LitInt::base10_digits`
composed with `num_bigint::BigUint::from_str`: `base10_digits` renders the
literal's value in base 10 with a leading `-` when the literal is negative,
and `BigUint::from_str` fails exactly when that minus sign is present,
otherwise returning the value. -/
def biguintFromBase10Digits (l : Lit) : Option Nat :=
  if l.neg then none else some l.val

/-- Model of `BigUint::bits()`: 0 for zero, otherwise ⌊log₂ n⌋ + 1 — the
length of the binary expansion. -/
def bitLen (n : Nat) : Nat :=
  (Nat.digits 2 n).length

/-- Model of `BigUint::to_bytes_be()`: minimal big-endian base-256 digits,
`[0]` for zero (num-bigint documents the zero special case). -/
def toBytesBe (n : Nat) : List Nat :=
  if n = 0 then [0] else (Nat.digits 256 n).reverse

/-- Decode a big-endian byte sequence back into a natural number. -/
def beVal (bs : List Nat) : Nat :=
  bs.foldl (fun a b => a * 256 + b) 0

/-- The base-classification match both exact-width implementations perform on
the normalized raw string: returns the form name, the bits-per-leading-zero-
digit option, and the remainder after the prefix. -/
def classify (s : List Char) : String × Option Nat × List Char :=
  match s with
  | '0' :: 'x' :: r => ("hex", some 4, r)
  | '0' :: 'b' :: r => ("binary", some 1, r)
  | '0' :: 'o' :: r => ("octal", none, r)
  | r => ("decimal", none, r)

/-- `remainder.iter().take_while(|d| **d == b'0').count()`. -/
def leadingZeroCount (r : List Char) : Nat :=
  (r.takeWhile (fun c => c == '0')).length

/-- The error message both exact-width implementations format for leading
zeros in a base without a fixed bits-per-digit ratio. -/
def lzMsg (form : String) : String :=
  "leading zeros are not preserved or supported on integer literals in " ++
    form ++ " form"

/-- The final assembly step shared verbatim by `bytes2` (lib.rs) and `bytes`
(bytes.rs): compute the bit length and minimal big-endian bytes of the value,
allocate `total_len = (leading_zero_bits + int_bits + 7) / 8` zero bytes and
copy the value bytes into the trailing positions.  The Rust slice expression
`total_bytes[total_len - int_len..]` panics when `int_len > total_len`
(usize subtraction underflow), which the model keeps observable. -/
def assemble (lzb n : Nat) : Outcome :=
  let intBits := bitLen n
  let intBytes := toBytesBe n
  let intLen := intBytes.length
  let totalBits := lzb + intBits
  let totalLen := (totalBits + 7) / 8
  if intLen ≤ totalLen then
    .ok (List.replicate (totalLen - intLen) 0 ++ intBytes)
  else
    .panic "attempt to subtract with overflow"

/-- The tail of lib.rs's `bytes2` after the leading-zero accounting: parse the
base-10 digits through `BigUint::from_str` — with a bare
`.expect("valid integer")`, so a negative literal panics here — then
assemble. -/
def bytes2Assemble (l : Lit) (lzb : Nat) : Outcome :=
  match biguintFromBase10Digits l with
  | none => .panic "valid integer"
  | some n => assemble lzb n

/-- src/lib.rs `bytes2`: normalize by deleting `-` and `_`, classify the base
from the prefix, count leading zero digits; bases with a fixed bits-per-digit
ratio turn them into leading zero bits, the others reject any leading zero;
then parse the value and assemble. -/
def bytes2 (l : Lit) : Outcome :=
  let normalized := l.raw.filter (fun c => !(c == '-' || c == '_'))
  let cl := classify normalized
  let lzc := leadingZeroCount cl.2.2
  match cl.2.1 with
  | some bits => bytes2Assemble l (lzc * bits)
  | none =>
      if lzc > 0 then .err (lzMsg cl.1)
      else bytes2Assemble l 0

/-- src/bytes.rs `bytes`: parse the value first — `BigUint::from_str` failing
means a negative literal, reported as a classified error — then normalize by
deleting `_` only, classify, account leading zeros, assemble. -/
def bytes (l : Lit) : Outcome :=
  match biguintFromBase10Digits l with
  | none => .err "negative values unsupported"
  | some n =>
      let normalized := l.raw.filter (fun c => !(c == '_'))
      let cl := classify normalized
      let lzc := leadingZeroCount cl.2.2
      match cl.2.1 with
      | some bits => assemble (lzc * bits) n
      | none =>
          if lzc > 0 then .err (lzMsg cl.1)
          else assemble 0 n

/-- src/bytesmin.rs `bytesmin`: reject every form that does not start (after
deleting `_`) with `0x` or `0b` — this keeps the minus sign, so negative
literals are rejected here too — then parse the value (the `expect` cannot
fire for accepted forms) and return its minimal big-endian bytes. -/
def bytesmin (l : Lit) : Outcome :=
  let normalized := l.raw.filter (fun c => !(c == '_'))
  match normalized with
  | '0' :: 'x' :: _ | '0' :: 'b' :: _ =>
      match biguintFromBase10Digits l with
      | none => .panic "valid hex or binary literal"
      | some n => .ok (toBytesBe n)
  | _ => .err "only positive hex (0x) and binary (0b) integer literals are supported"

/-- Modelled from the spec: the repository implements only the restricted
minimal-width variant (`bytesmin`); the unrestricted minimal-width policy of
spec §4.1 Step 5 ("minimal-width: `leading_zero_bits` is always forced to 0
regardless of spelling", accepting every base) and §8
(`encode("0o0377", minimal-unrestricted)` → `[255]`) has no source file.
Following the spec's steps: reject a leading minus sign (Step 1), force
`leading_zero_bits = 0` (Step 5), and render the value's minimal big-endian
bytes with zero encoded as a single zero byte (Step 6). -/
def bytesminUnrestricted (l : Lit) : Outcome :=
  if l.neg then .err "negative values unsupported"
  else .ok (toBytesBe l.val)

/-- Leading zero digit count of the (separator-stripped) digit body. -/
def Lit.lzd (l : Lit) : Nat :=
  leadingZeroCount l.bodyD

/-- The leading zero bits the exact-width policy derives from the spelling:
`lzd × bits_per_digit` when the base has a fixed ratio, else 0 (reached only
when `lzd = 0`). -/
def Lit.lzb (l : Lit) : Nat :=
  match l.base.bitsPerDigit with
  | some k => l.lzd * k
  | none => 0

/-- Count of fully-zero leading bytes of an output. -/
def leadingZeroByteCount (bs : List Nat) : Nat :=
  (bs.takeWhile (fun b => b == 0)).length

/-! ## Character facts -/

/-- Among valid digit characters of any base, only `'0'` has digit value 0. -/
lemma digit_eq_zero_char {b : Base} {c : Char} (hd : isDigitOf b c = true)
    (hv : digitVal c = 0) : c = '0' := by
  have h48 : c.toNat = 48 := by
    cases b <;> simp [isDigitOf] at hd <;> unfold digitVal at hv <;>
      split_ifs at hv <;> omega
  have h := Char.ofNat_toNat c
  rw [h48] at h
  rw [← h]

lemma digit_pred2 {b : Base} {c : Char} (h : isDigitOf b c = true) :
    (!(c == '-' || c == '_')) = true := by
  by_cases h1 : c = '-'
  · subst h1; cases b <;> exact absurd h (by decide)
  · by_cases h2 : c = '_'
    · subst h2; cases b <;> exact absurd h (by decide)
    · simp [beq_eq_false_iff_ne.mpr h1, beq_eq_false_iff_ne.mpr h2]

lemma digit_pred1 {b : Base} {c : Char} (h : isDigitOf b c = true) :
    (!(c == '_')) = true := by
  by_cases h2 : c = '_'
  · subst h2; cases b <;> exact absurd h (by decide)
  · simp [beq_eq_false_iff_ne.mpr h2]

lemma alnum_pred2 {c : Char} (h : (c.isAlpha || c.isDigit) = true) :
    (!(c == '-' || c == '_')) = true := by
  by_cases h1 : c = '-'
  · subst h1; exact absurd h (by decide)
  · by_cases h2 : c = '_'
    · subst h2; exact absurd h (by decide)
    · simp [beq_eq_false_iff_ne.mpr h1, beq_eq_false_iff_ne.mpr h2]

lemma alnum_pred1 {c : Char} (h : (c.isAlpha || c.isDigit) = true) :
    (!(c == '_')) = true := by
  by_cases h2 : c = '_'
  · subst h2; exact absurd h (by decide)
  · simp [beq_eq_false_iff_ne.mpr h2]

lemma alpha_ne_zero {c : Char} (h : c.isAlpha = true) : (c == '0') = false := by
  by_cases h0 : c = '0'
  · subst h0; exact absurd h (by decide)
  · exact beq_eq_false_iff_ne.mpr h0

/-! ## List helpers -/

lemma takeWhile_append_of_nil {α : Type} (p : α → Bool) (ys : List α)
    (h : ys.takeWhile p = []) :
    ∀ xs : List α, (xs ++ ys).takeWhile p = xs.takeWhile p := by
  intro xs
  induction xs with
  | nil => simpa using h
  | cons x xs ih =>
      by_cases hx : p x
      · simp [List.takeWhile_cons, hx, ih]
      · simp [List.takeWhile_cons, hx]

lemma takeWhile_nil_of_head {ys : List Char}
    (h : ∀ c ∈ ys.head?, (c == '0') = false) :
    ys.takeWhile (fun c => c == '0') = [] := by
  cases ys with
  | nil => rfl
  | cons c t =>
      have hc := h c (by simp)
      simp [List.takeWhile_cons, hc]

lemma takeWhile_zero_replicate_append (d : Nat) (bs : List Nat) :
    (List.replicate d 0 ++ bs).takeWhile (fun b => b == 0) =
      List.replicate d 0 ++ bs.takeWhile (fun b => b == 0) := by
  induction d with
  | zero => rfl
  | succ d ih => simp [List.replicate_succ, List.takeWhile_cons, ih]

/-! ## Membership and digit-run facts about well-formed literals -/

lemma bodyD_digit (l : Lit) (hw : l.WF) {c : Char} (hc : c ∈ l.bodyD) :
    isDigitOf l.base c = true := by
  unfold Lit.bodyD at hc
  have hm := List.mem_filter.mp hc
  rcases hw.body_digits c hm.1 with h | h
  · exfalso
    have := hm.2
    rw [h] at this
    simp at this
  · exact h

lemma foldl_digits_eq_zero {rad : Nat} (hr : 1 ≤ rad) :
    ∀ (L : List Char) (a : Nat),
      L.foldl (fun a c => a * rad + digitVal c) a = 0 →
        a = 0 ∧ ∀ c ∈ L, digitVal c = 0 := by
  intro L
  induction L with
  | nil =>
      intro a h
      exact ⟨h, by simp⟩
  | cons c t ih =>
      intro a h
      simp only [List.foldl_cons] at h
      obtain ⟨h1, h2⟩ := ih _ h
      have hc : digitVal c = 0 := by omega
      have ha : a = 0 := by
        rcases Nat.mul_eq_zero.mp (by omega : a * rad = 0) with h' | h'
        · exact h'
        · omega
      refine ⟨ha, ?_⟩
      intro x hx
      rcases List.mem_cons.mp hx with rfl | hx
      · exact hc
      · exact h2 x hx

lemma lzd_pos_of_val_zero (l : Lit) (hw : l.WF) (hv : l.val = 0) : 0 < l.lzd := by
  unfold Lit.val at hv
  have hr : 1 ≤ l.base.radix := by cases l.base <;> decide
  obtain ⟨-, hall⟩ := foldl_digits_eq_zero hr l.bodyD 0 hv
  obtain ⟨d, rest, hd⟩ : ∃ d rest, l.bodyD = d :: rest := by
    cases h : l.bodyD with
    | nil => exact absurd h hw.body_ne
    | cons d rest => exact ⟨d, rest, rfl⟩
  have hdig : isDigitOf l.base d = true := bodyD_digit l hw (by rw [hd]; simp)
  have hd0 : d = '0' := digit_eq_zero_char hdig (hall d (by rw [hd]; simp))
  unfold Lit.lzd leadingZeroCount
  rw [hd, hd0]
  simp [List.takeWhile_cons]

/-! ## Shape of the normalized raw string -/

/-- lib.rs normalization: deleting `-` and `_` from the raw spelling leaves
the base prefix, the separator-free digit body, and the suffix. -/
lemma filter2_raw (l : Lit) (hw : l.WF) :
    l.raw.filter (fun c => !(c == '-' || c == '_')) =
      l.base.prefixChars ++ l.bodyD ++ l.suffix := by
  unfold Lit.raw
  simp only [List.filter_append]
  have hsign : (if l.neg then ['-'] else []).filter
      (fun c => !(c == '-' || c == '_')) = [] := by
    cases l.neg <;> rfl
  have hpre : (l.base.prefixChars).filter (fun c => !(c == '-' || c == '_')) =
      l.base.prefixChars := by
    cases l.base <;> rfl
  have hbody : l.body.filter (fun c => !(c == '-' || c == '_')) = l.bodyD := by
    unfold Lit.bodyD
    apply List.filter_congr
    intro c hc
    rcases hw.body_digits c hc with h | h
    · subst h; rfl
    · rw [digit_pred2 h, digit_pred1 h]
  have hsuf : l.suffix.filter (fun c => !(c == '-' || c == '_')) = l.suffix :=
    List.filter_eq_self.mpr fun c hc => alnum_pred2 (hw.suffix_alnum c hc)
  rw [hsign, hpre, hbody, hsuf]
  simp

/-- bytes.rs / bytesmin.rs normalization: deleting only `_` keeps the minus
sign. -/
lemma filter1_raw (l : Lit) (hw : l.WF) :
    l.raw.filter (fun c => !(c == '_')) =
      (if l.neg then ['-'] else []) ++ l.base.prefixChars ++ l.bodyD ++ l.suffix := by
  unfold Lit.raw
  simp only [List.filter_append]
  have hsign : (if l.neg then ['-'] else []).filter (fun c => !(c == '_')) =
      (if l.neg then ['-'] else []) := by
    cases l.neg <;> rfl
  have hpre : (l.base.prefixChars).filter (fun c => !(c == '_')) =
      l.base.prefixChars := by
    cases l.base <;> rfl
  have hbody : l.body.filter (fun c => !(c == '_')) = l.bodyD := rfl
  have hsuf : l.suffix.filter (fun c => !(c == '_')) = l.suffix :=
    List.filter_eq_self.mpr fun c hc => alnum_pred1 (hw.suffix_alnum c hc)
  rw [hsign, hpre, hbody, hsuf]

/-! ## Classification -/

/-- A well-formed decimal literal's digit-body-plus-suffix cannot look like a
prefixed literal: its head is a decimal digit, and a lone `0` body cannot be
followed by a suffix starting in `x`, `b` or `o`. -/
lemma decimal_not_pref (l : Lit) (hw : l.WF) (hbase : l.base = .decimal)
    {c : Char} (hc : c = 'x' ∨ c = 'b' ∨ c = 'o') :
    ∀ r, l.bodyD ++ l.suffix ≠ '0' :: c :: r := by
  intro r heq
  obtain ⟨d, rest, hd⟩ : ∃ d rest, l.bodyD = d :: rest := by
    cases h : l.bodyD with
    | nil => exact absurd h hw.body_ne
    | cons d rest => exact ⟨d, rest, rfl⟩
  rw [hd, List.cons_append] at heq
  obtain ⟨hd0, htl⟩ := List.cons_eq_cons.mp heq
  cases rest with
  | cons d2 rest2 =>
      rw [List.cons_append] at htl
      obtain ⟨hd2, -⟩ := List.cons_eq_cons.mp htl
      have hdig : isDigitOf l.base d2 = true :=
        bodyD_digit l hw (by rw [hd]; simp)
      rw [hbase, hd2] at hdig
      rcases hc with rfl | rfl | rfl <;> exact absurd hdig (by decide)
  | nil =>
      rw [List.nil_append] at htl
      have hhead : c ∈ l.suffix.head? := by rw [htl]; simp
      have hnc := hw.decimal_noconfuse hbase (by rw [hd, hd0]) c hhead
      rcases hc with rfl | rfl | rfl
      · exact hnc.1 rfl
      · exact hnc.2.1 rfl
      · exact hnc.2.2 rfl

lemma classify_decimal (s : List Char)
    (hx : ∀ r, s ≠ '0' :: 'x' :: r) (hb : ∀ r, s ≠ '0' :: 'b' :: r)
    (ho : ∀ r, s ≠ '0' :: 'o' :: r) :
    classify s = ("decimal", none, s) := by
  unfold classify
  split
  · exact absurd rfl (hx _)
  · exact absurd rfl (hb _)
  · exact absurd rfl (ho _)
  · rfl

lemma classify_of_decimal (l : Lit) (hw : l.WF) (hbase : l.base = .decimal) :
    classify (l.bodyD ++ l.suffix) = ("decimal", none, l.bodyD ++ l.suffix) :=
  classify_decimal _
    (decimal_not_pref l hw hbase (Or.inl rfl))
    (decimal_not_pref l hw hbase (Or.inr (Or.inl rfl)))
    (decimal_not_pref l hw hbase (Or.inr (Or.inr rfl)))

/-- The leading-zero scan over body-plus-suffix stops inside the body: the
suffix head is a letter, never `'0'`. -/
lemma lzc_body_suffix (l : Lit) (hw : l.WF) :
    leadingZeroCount (l.bodyD ++ l.suffix) = l.lzd := by
  unfold Lit.lzd leadingZeroCount
  rw [takeWhile_append_of_nil _ _ (takeWhile_nil_of_head ?_)]
  intro c hc
  exact alpha_ne_zero (hw.suffix_head c hc).1

/-! ## Properties of the byte serialization primitives -/

lemma beVal_reverse (L : List Nat) : beVal L.reverse = Nat.ofDigits 256 L := by
  induction L with
  | nil => rfl
  | cons d t ih =>
      unfold beVal at *
      rw [List.reverse_cons, List.foldl_append, Nat.ofDigits_cons]
      simp only [List.foldl_cons, List.foldl_nil]
      rw [ih]
      omega

lemma beVal_toBytesBe (n : Nat) : beVal (toBytesBe n) = n := by
  unfold toBytesBe
  split
  · rename_i h
    rw [h]
    rfl
  · rw [beVal_reverse, Nat.ofDigits_digits]

lemma toBytesBe_ne_nil (n : Nat) : toBytesBe n ≠ [] := by
  unfold toBytesBe
  split
  · simp
  · rename_i h
    simp [Nat.digits_ne_nil_iff_ne_zero, h]

lemma head_toBytesBe (n : Nat) (hn : n ≠ 0) : (toBytesBe n).head? ≠ some 0 := by
  unfold toBytesBe
  rw [if_neg hn, List.head?_reverse]
  have hne : Nat.digits 256 n ≠ [] := Nat.digits_ne_nil_iff_ne_zero.mpr hn
  rw [List.getLast?_eq_getLast_of_ne_nil hne]
  intro hcontra
  apply Nat.getLast_digit_ne_zero 256 hn
  injection hcontra

lemma digitsLen_le_iff {b n k : Nat} (hb : 1 < b) (hn : n ≠ 0) :
    (Nat.digits b n).length ≤ k ↔ n < b ^ k := by
  rw [Nat.digits_len b n hb hn, Nat.lt_pow_iff_log_lt hb hn]
  omega

lemma length_toBytesBe {n : Nat} (hn : n ≠ 0) :
    (toBytesBe n).length = (bitLen n + 7) / 8 := by
  unfold toBytesBe bitLen
  rw [if_neg hn, List.length_reverse]
  have key : ∀ k, (Nat.digits 256 n).length ≤ k ↔ (Nat.digits 2 n).length ≤ 8 * k := by
    intro k
    rw [digitsLen_le_iff (by norm_num) hn, digitsLen_le_iff (by norm_num) hn]
    have h28 : (256 : ℕ) ^ k = 2 ^ (8 * k) := by
      rw [pow_mul]
      norm_num
    rw [h28]
  apply le_antisymm
  · rw [key]
    omega
  · have h2 : (Nat.digits 2 n).length ≤ 8 * (Nat.digits 256 n).length :=
      (key _).mp le_rfl
    omega

lemma length_toBytesBe_zero : (toBytesBe 0).length = 1 := rfl

lemma bitLen_zero : bitLen 0 = 0 := by
  simp [bitLen]

/-- The central in-bounds fact of the assembly step: the minimal byte
representation never exceeds the computed total length, provided a zero value
comes with at least one leading zero bit (which the digit spelling guarantees
for the bases that reach assembly with a zero value). -/
lemma intLen_le_totalLen {lzb n : Nat} (h : n = 0 → 1 ≤ lzb) :
    (toBytesBe n).length ≤ (lzb + bitLen n + 7) / 8 := by
  by_cases hn : n = 0
  · subst hn
    rw [length_toBytesBe_zero, bitLen_zero]
    have := h rfl
    omega
  · rw [length_toBytesBe hn]
    omega

lemma assemble_eq {lzb n : Nat} (h : n = 0 → 1 ≤ lzb) :
    assemble lzb n =
      .ok (List.replicate ((lzb + bitLen n + 7) / 8 - (toBytesBe n).length) 0 ++
        toBytesBe n) := by
  unfold assemble
  rw [if_pos (intLen_le_totalLen h)]

/-! ## Characterizing the exact-width implementations -/

lemma classify_hex (t : List Char) : classify ('0' :: 'x' :: t) = ("hex", some 4, t) := rfl

lemma classify_bin (t : List Char) : classify ('0' :: 'b' :: t) = ("binary", some 1, t) := rfl

lemma classify_oct (t : List Char) : classify ('0' :: 'o' :: t) = ("octal", none, t) := rfl

lemma lzb_hex (l : Lit) (h : l.base = .hex) : l.lzb = l.lzd * 4 := by
  unfold Lit.lzb
  rw [h]
  rfl

lemma lzb_bin (l : Lit) (h : l.base = .binary) : l.lzb = l.lzd * 1 := by
  unfold Lit.lzb
  rw [h]
  rfl

lemma lzb_of_none (l : Lit) (h : l.base.bitsPerDigit = none) : l.lzb = 0 := by
  unfold Lit.lzb
  rw [h]

lemma bytes2Assemble_pos (l : Lit) (hn : l.neg = false) (lzb : Nat) :
    bytes2Assemble l lzb = assemble lzb l.val := by
  simp [bytes2Assemble, biguintFromBase10Digits, hn]

lemma bytes2Assemble_neg (l : Lit) (hn : l.neg = true) (lzb : Nat) :
    bytes2Assemble l lzb = .panic "valid integer" := by
  simp [bytes2Assemble, biguintFromBase10Digits, hn]

/-- lib.rs `bytes2`, after base classification and leading-zero accounting
(valid for either sign, since the normalization deletes the minus sign before
classification): the decimal/octal leading-zero error, or the parse-and-
assemble tail with `leading_zero_bits = l.lzb`. -/
lemma bytes2_classified (l : Lit) (hw : l.WF) :
    bytes2 l =
      if l.base.bitsPerDigit = none ∧ 0 < l.lzd then .err (lzMsg l.base.formName)
      else bytes2Assemble l l.lzb := by
  simp only [bytes2]
  rw [filter2_raw l hw]
  cases hbase : l.base with
  | hex =>
      simp only [Base.prefixChars, List.cons_append, List.nil_append, classify_hex,
        Base.bitsPerDigit, Base.formName]
      rw [lzc_body_suffix l hw, lzb_hex l hbase]
      simp
  | binary =>
      simp only [Base.prefixChars, List.cons_append, List.nil_append, classify_bin,
        Base.bitsPerDigit, Base.formName]
      rw [lzc_body_suffix l hw, lzb_bin l hbase]
      simp
  | octal =>
      simp only [Base.prefixChars, List.cons_append, List.nil_append, classify_oct,
        Base.bitsPerDigit, Base.formName]
      rw [lzc_body_suffix l hw, lzb_of_none l (by rw [hbase]; rfl)]
      by_cases hlz : 0 < l.lzd
      · simp [hlz, lzMsg]
      · simp [hlz]
  | decimal =>
      simp only [Base.prefixChars, List.nil_append, Base.bitsPerDigit, Base.formName]
      rw [classify_of_decimal l hw hbase]
      simp only []
      rw [lzc_body_suffix l hw, lzb_of_none l (by rw [hbase]; rfl)]
      by_cases hlz : 0 < l.lzd
      · simp [hlz, lzMsg]
      · simp [hlz]

lemma bytes_of_neg (l : Lit) (hn : l.neg = true) :
    bytes l = .err "negative values unsupported" := by
  simp [bytes, biguintFromBase10Digits, hn]

/-- bytes.rs `bytes` on a non-negative well-formed literal reduces to the same
classification-error-or-assemble shape as lib.rs `bytes2`. -/
lemma bytes_classified (l : Lit) (hw : l.WF) (hn : l.neg = false) :
    bytes l =
      if l.base.bitsPerDigit = none ∧ 0 < l.lzd then .err (lzMsg l.base.formName)
      else assemble l.lzb l.val := by
  simp only [bytes, biguintFromBase10Digits, hn, if_false, Bool.false_eq_true]
  rw [filter1_raw l hw, hn]
  simp only [if_false, List.nil_append, Bool.false_eq_true]
  cases hbase : l.base with
  | hex =>
      simp only [Base.prefixChars, List.cons_append, List.nil_append, classify_hex,
        Base.bitsPerDigit, Base.formName]
      rw [lzc_body_suffix l hw, lzb_hex l hbase]
      simp
  | binary =>
      simp only [Base.prefixChars, List.cons_append, List.nil_append, classify_bin,
        Base.bitsPerDigit, Base.formName]
      rw [lzc_body_suffix l hw, lzb_bin l hbase]
      simp
  | octal =>
      simp only [Base.prefixChars, List.cons_append, List.nil_append, classify_oct,
        Base.bitsPerDigit, Base.formName]
      rw [lzc_body_suffix l hw, lzb_of_none l (by rw [hbase]; rfl)]
      by_cases hlz : 0 < l.lzd
      · simp [hlz, lzMsg]
      · simp [hlz]
  | decimal =>
      simp only [Base.prefixChars, List.nil_append, Base.bitsPerDigit, Base.formName]
      rw [classify_of_decimal l hw hbase]
      simp only []
      rw [lzc_body_suffix l hw, lzb_of_none l (by rw [hbase]; rfl)]
      by_cases hlz : 0 < l.lzd
      · simp [hlz, lzMsg]
      · simp [hlz]

/-- The two exact-width implementations coincide on well-formed non-negative
literals. -/
lemma bytes2_eq_bytes_of_nonneg (l : Lit) (hw : l.WF) (hn : l.neg = false) :
    bytes2 l = bytes l := by
  rw [bytes2_classified l hw, bytes_classified l hw hn, bytes2Assemble_pos l hn]

/-- When the value is zero and assembly is reached, the spelling provides at
least one leading zero bit. -/
lemma lzb_pos_of_val_zero (l : Lit) (hw : l.WF) (hv : l.val = 0)
    (hreach : ¬(l.base.bitsPerDigit = none ∧ 0 < l.lzd)) : 1 ≤ l.lzb := by
  have hlzd := lzd_pos_of_val_zero l hw hv
  unfold Lit.lzb
  cases hb : l.base.bitsPerDigit with
  | none => exact absurd ⟨hb, hlzd⟩ hreach
  | some k =>
      have hk : 1 ≤ k := by
        cases hbase : l.base <;> rw [hbase] at hb <;>
          simp [Base.bitsPerDigit] at hb <;> omega
      exact Nat.mul_pos hlzd hk

/-- `bytes2` on a well-formed, non-negative literal that passes the
leading-zero check returns the assembled output. -/
lemma bytes2_ok_eq (l : Lit) (hw : l.WF) (hn : l.neg = false)
    (hreach : ¬(l.base.bitsPerDigit = none ∧ 0 < l.lzd)) :
    bytes2 l =
      .ok (List.replicate ((l.lzb + bitLen l.val + 7) / 8 - (toBytesBe l.val).length) 0 ++
        toBytesBe l.val) := by
  rw [bytes2_classified l hw, if_neg hreach, bytes2Assemble_pos l hn]
  exact assemble_eq fun hv => lzb_pos_of_val_zero l hw hv hreach

/-! ## Characterizing the restricted minimal-width implementation -/

lemma bytesmin_of_neg (l : Lit) (hw : l.WF) (hn : l.neg = true) :
    bytesmin l =
      .err "only positive hex (0x) and binary (0b) integer literals are supported" := by
  simp only [bytesmin]
  rw [filter1_raw l hw, hn]
  simp only [if_true, List.cons_append, List.nil_append]
  split
  · rename_i heq
    simp at heq
  · rename_i heq
    simp at heq
  · rfl

lemma bytesmin_hexbin (l : Lit) (hw : l.WF)
    (hb : l.base = .hex ∨ l.base = .binary) (hn : l.neg = false) :
    bytesmin l = .ok (toBytesBe l.val) := by
  simp only [bytesmin, biguintFromBase10Digits, hn]
  rw [filter1_raw l hw, hn]
  simp only [if_false, List.nil_append, Bool.false_eq_true]
  rcases hb with hbase | hbase <;>
    rw [hbase] <;>
      simp [Base.prefixChars]

lemma bytesmin_err_decoct (l : Lit) (hw : l.WF)
    (hb : l.base = .decimal ∨ l.base = .octal) :
    bytesmin l =
      .err "only positive hex (0x) and binary (0b) integer literals are supported" := by
  cases hn : l.neg with
  | true => exact bytesmin_of_neg l hw hn
  | false =>
      simp only [bytesmin]
      rw [filter1_raw l hw, hn]
      simp only [if_false, List.nil_append, Bool.false_eq_true]
      rcases hb with hbase | hbase
      · rw [hbase]
        simp only [Base.prefixChars, List.nil_append]
        split
        · rename_i heq
          exact absurd heq (decimal_not_pref l hw hbase (Or.inl rfl) _)
        · rename_i heq
          exact absurd heq (decimal_not_pref l hw hbase (Or.inr (Or.inl rfl)) _)
        · rfl
      · rw [hbase]
        simp only [Base.prefixChars, List.cons_append, List.nil_append]
        split
        · rename_i heq
          simp at heq
        · rename_i heq
          simp at heq
        · rfl

lemma bytesmin_ok_inv (l : Lit) (hw : l.WF) (bs : List Nat)
    (h : bytesmin l = .ok bs) : l.neg = false ∧ bs = toBytesBe l.val := by
  cases hn : l.neg with
  | true =>
      rw [bytesmin_of_neg l hw hn] at h
      exact absurd h (by simp)
  | false =>
      refine ⟨rfl, ?_⟩
      cases hbase : l.base with
      | decimal =>
          rw [bytesmin_err_decoct l hw (Or.inl hbase)] at h
          exact absurd h (by simp)
      | octal =>
          rw [bytesmin_err_decoct l hw (Or.inr hbase)] at h
          exact absurd h (by simp)
      | hex =>
          rw [bytesmin_hexbin l hw (Or.inl hbase) hn] at h
          injection h with h
          exact h.symm
      | binary =>
          rw [bytesmin_hexbin l hw (Or.inr hbase) hn] at h
          injection h with h
          exact h.symm

lemma bytesminUnrestricted_ok_inv (l : Lit) (bs : List Nat)
    (h : bytesminUnrestricted l = .ok bs) : l.neg = false ∧ bs = toBytesBe l.val := by
  unfold bytesminUnrestricted at h
  cases hn : l.neg with
  | true =>
      rw [hn] at h
      simp at h
  | false =>
      rw [hn] at h
      simp at h
      exact ⟨rfl, h.symm⟩

/-! ## Shape of an assembled output -/

lemma length_output {lzb n : Nat} (h : n = 0 → 1 ≤ lzb) :
    (List.replicate ((lzb + bitLen n + 7) / 8 - (toBytesBe n).length) 0 ++
        toBytesBe n).length = (lzb + bitLen n + 7) / 8 := by
  rw [List.length_append, List.length_replicate]
  have := intLen_le_totalLen h
  omega

lemma takeWhile_zero_nil_of_head {bs : List Nat} (h : bs.head? ≠ some 0) :
    bs.takeWhile (fun b => b == 0) = [] := by
  cases bs with
  | nil => rfl
  | cons c t =>
      have hc : ¬ c = 0 := by
        intro hc
        rw [hc] at h
        simp at h
      simp [List.takeWhile_cons, hc]

lemma zeroCount_output_pos {n : Nat} (hn : n ≠ 0) (d : Nat) :
    leadingZeroByteCount (List.replicate d 0 ++ toBytesBe n) = d := by
  unfold leadingZeroByteCount
  rw [takeWhile_zero_replicate_append,
    takeWhile_zero_nil_of_head (head_toBytesBe n hn)]
  simp

lemma zeroCount_output_zero (d : Nat) :
    leadingZeroByteCount (List.replicate d 0 ++ toBytesBe 0) = d + 1 := by
  unfold leadingZeroByteCount
  rw [takeWhile_zero_replicate_append]
  simp [toBytesBe]

lemma assemble_ok_len {lzb n : Nat} {bs : List Nat} (h : assemble lzb n = .ok bs) :
    0 < bs.length := by
  simp only [assemble] at h
  split at h
  · injection h with h
    rw [← h, List.length_append]
    have : 0 < (toBytesBe n).length := List.length_pos.mpr (toBytesBe_ne_nil n)
    omega
  · exact absurd h (by simp)

lemma bytes2_ok_len (l : Lit) (hw : l.WF) (bs : List Nat) (h : bytes2 l = .ok bs) :
    0 < bs.length := by
  rw [bytes2_classified l hw] at h
  by_cases hreach : l.base.bitsPerDigit = none ∧ 0 < l.lzd
  · rw [if_pos hreach] at h
    exact absurd h (by simp)
  · rw [if_neg hreach] at h
    cases hn : l.neg with
    | true =>
        rw [bytes2Assemble_neg l hn] at h
        exact absurd h (by simp)
    | false =>
        rw [bytes2Assemble_pos l hn] at h
        exact assemble_ok_len h

lemma bytes_ok_len (l : Lit) (hw : l.WF) (bs : List Nat) (h : bytes l = .ok bs) :
    0 < bs.length := by
  cases hn : l.neg with
  | true =>
      rw [bytes_of_neg l hn] at h
      exact absurd h (by simp)
  | false =>
      rw [bytes_classified l hw hn] at h
      by_cases hreach : l.base.bitsPerDigit = none ∧ 0 < l.lzd
      · rw [if_pos hreach] at h
        exact absurd h (by simp)
      · rw [if_neg hreach] at h
        exact assemble_ok_len h

lemma toBytesBe_zero : toBytesBe 0 = [0] := rfl

lemma toBytesBe_small {n : Nat} (h1 : n ≠ 0) (h2 : n < 256) : toBytesBe n = [n] := by
  unfold toBytesBe
  rw [if_neg h1, Nat.digits_of_lt 256 n h1 h2]
  rfl

lemma bitLen_one : bitLen 1 = 1 := by
  unfold bitLen
  rw [Nat.digits_of_lt 2 1 (by norm_num) (by norm_num)]
  rfl

lemma base_of_bpd_none (l : Lit) (h : l.base.bitsPerDigit = none) :
    l.base = .decimal ∨ l.base = .octal := by
  cases hb : l.base with
  | decimal => exact Or.inl rfl
  | octal => exact Or.inr rfl
  | hex => rw [hb] at h; exact absurd h (by simp [Base.bitsPerDigit])
  | binary => rw [hb] at h; exact absurd h (by simp [Base.bitsPerDigit])

lemma bytes2_no_panic (l : Lit) (hw : l.WF) (hn : l.neg = false) :
    ∀ m, bytes2 l ≠ .panic m := by
  intro m
  rw [bytes2_classified l hw]
  by_cases hreach : l.base.bitsPerDigit = none ∧ 0 < l.lzd
  · rw [if_pos hreach]
    simp
  · rw [if_neg hreach, bytes2Assemble_pos l hn,
      assemble_eq fun hv => lzb_pos_of_val_zero l hw hv hreach]
    simp

lemma bytes_no_panic (l : Lit) (hw : l.WF) (hn : l.neg = false) :
    ∀ m, bytes l ≠ .panic m := by
  intro m
  rw [bytes_classified l hw hn]
  by_cases hreach : l.base.bitsPerDigit = none ∧ 0 < l.lzd
  · rw [if_pos hreach]
    simp
  · rw [if_neg hreach,
      assemble_eq fun hv => lzb_pos_of_val_zero l hw hv hreach]
    simp

lemma replicate_append_zero {T : Nat} (h : 1 ≤ T) :
    List.replicate (T - 1) (0 : Nat) ++ [0] = List.replicate T 0 := by
  have hT : T = (T - 1) + 1 := by omega
  rw [hT]
  simp [List.replicate_succ']

/-- Builds the well-formedness witness for a suffix-free literal. -/
lemma WF_nosuffix (neg : Bool) (b : Base) (body : List Char)
    (h1 : (⟨neg, b, body, []⟩ : Lit).bodyD ≠ [])
    (h2 : ∀ c ∈ body, c = '_' ∨ isDigitOf b c = true) :
    (⟨neg, b, body, []⟩ : Lit).WF := by
  refine ⟨h1, h2, ?_, ?_, ?_⟩
  · intro c hc
    simp at hc
  · intro c hc
    simp at hc
  · intro _ _ c hc
    simp at hc

/-! ## The claims -/

/-- Claim C1: for every valid non-negative literal with value `n` accepted by
the minimal-width policy (the restricted `bytesmin` of src/bytesmin.rs, and
likewise the spec-modelled unrestricted variant), decoding the returned bytes
as a big-endian unsigned integer reproduces `n` exactly; the result has no
leading zero byte unless `n = 0`, in which case it is exactly `[0]`. -/
theorem c1_minimal_roundtrip (l : Lit) (hw : l.WF) (bs : List Nat)
    (h : bytesmin l = .ok bs ∨ bytesminUnrestricted l = .ok bs) :
    beVal bs = l.val ∧ (l.val = 0 → bs = [0]) ∧ (l.val ≠ 0 → bs.head? ≠ some 0) := by
  have hbs : bs = toBytesBe l.val := by
    rcases h with h | h
    · exact (bytesmin_ok_inv l hw bs h).2
    · exact (bytesminUnrestricted_ok_inv l bs h).2
  subst hbs
  refine ⟨beVal_toBytesBe _, ?_, ?_⟩
  · intro hv
    rw [hv, toBytesBe_zero]
  · intro hv
    exact head_toBytesBe _ hv

/-- Witness for C1 at the literal `0x01`. -/
theorem c1_minimal_roundtrip_witness :
    beVal [1] = (⟨false, Base.hex, ['0', '1'], []⟩ : Lit).val ∧
    ((⟨false, Base.hex, ['0', '1'], []⟩ : Lit).val = 0 → [1] = ([0] : List Nat)) ∧
    ((⟨false, Base.hex, ['0', '1'], []⟩ : Lit).val ≠ 0 →
      ([1] : List Nat).head? ≠ some 0) := by
  have hw : (⟨false, Base.hex, ['0', '1'], []⟩ : Lit).WF :=
    WF_nosuffix false Base.hex ['0', '1'] (by decide) (by decide)
  apply c1_minimal_roundtrip _ hw
  left
  rw [bytesmin_hexbin _ hw (Or.inl rfl) rfl,
    (by decide : (⟨false, Base.hex, ['0', '1'], []⟩ : Lit).val = 1),
    toBytesBe_small (by norm_num) (by norm_num)]

/-- Claim C3 (code bug): the spec requires a classified rejection of every
negative literal under every policy, and src/bytes.rs and src/bytesmin.rs do
reject them, but lib.rs's `bytes2` — the published exact-width macro body —
reaches `BigUint::from_str(lit.base10_digits()).expect("valid integer")`
whose parse fails on the minus sign, so it panics instead of returning an
error.  Evaluation at the failing input `-0x1`. -/
theorem c3_negative_literal_outcomes :
    bytes2 ⟨true, Base.hex, ['1'], []⟩ = .panic "valid integer" ∧
    bytes ⟨true, Base.hex, ['1'], []⟩ = .err "negative values unsupported" ∧
    bytesmin ⟨true, Base.hex, ['1'], []⟩ =
      .err "only positive hex (0x) and binary (0b) integer literals are supported" ∧
    bytesminUnrestricted ⟨true, Base.hex, ['1'], []⟩ =
      .err "negative values unsupported" := by
  refine ⟨by decide, by decide, by decide, by decide⟩

/-- Claim C4: every non-negative decimal or octal literal whose digit body has
a leading zero digit fails under the exact-width policy (both
implementations) with the leading-zeros error, whose message names the
offending base. -/
theorem c4_decoct_leading_zero_error (l : Lit) (hw : l.WF) (hn : l.neg = false)
    (hb : l.base = .decimal ∨ l.base = .octal) (hlz : 0 < l.lzd) :
    bytes2 l = .err (lzMsg l.base.formName) ∧
    bytes l = .err (lzMsg l.base.formName) ∧
    (l.base = .decimal → l.base.formName = "decimal") ∧
    (l.base = .octal → l.base.formName = "octal") := by
  have hbpd : l.base.bitsPerDigit = none := by
    rcases hb with h | h <;> rw [h] <;> rfl
  refine ⟨?_, ?_, ?_, ?_⟩
  · rw [bytes2_classified l hw, if_pos ⟨hbpd, hlz⟩]
  · rw [bytes_classified l hw hn, if_pos ⟨hbpd, hlz⟩]
  · intro h
    rw [h]
    rfl
  · intro h
    rw [h]
    rfl

/-- Witness for C4 at the literal `0255`. -/
theorem c4_decoct_leading_zero_error_witness :
    bytes2 ⟨false, Base.decimal, ['0', '2', '5', '5'], []⟩ = .err (lzMsg "decimal") ∧
    bytes ⟨false, Base.decimal, ['0', '2', '5', '5'], []⟩ = .err (lzMsg "decimal") := by
  have h := c4_decoct_leading_zero_error ⟨false, Base.decimal, ['0', '2', '5', '5'], []⟩
    (WF_nosuffix false Base.decimal ['0', '2', '5', '5'] (by decide) (by decide))
    rfl (Or.inl rfl) (by decide)
  exact ⟨h.1, h.2.1⟩

/-- Claim C6: the restricted minimal-width policy (`bytesmin`) rejects every
literal whose base is not hex or binary with the unsupported-form error.  The
statement needs no hypothesis on the sign or on the value: the rejection
happens before the numeric value is ever parsed (Step 4 is not reached), so
it holds even for negative literals, on which the later parse would have
trapped. -/
theorem c6_restricted_rejects_nonhexbin (l : Lit) (hw : l.WF)
    (hb : l.base = .decimal ∨ l.base = .octal) :
    bytesmin l =
      .err "only positive hex (0x) and binary (0b) integer literals are supported" :=
  bytesmin_err_decoct l hw hb

/-- Witness for C6 at the (zero-free, in-range) octal literal `0o377`. -/
theorem c6_restricted_rejects_nonhexbin_witness :
    bytesmin ⟨false, Base.octal, ['3', '7', '7'], []⟩ =
      .err "only positive hex (0x) and binary (0b) integer literals are supported" :=
  c6_restricted_rejects_nonhexbin ⟨false, Base.octal, ['3', '7', '7'], []⟩
    (WF_nosuffix false Base.octal ['3', '7', '7'] (by decide) (by decide))
    (Or.inr rfl)

/-- Claim C2: for every hex or binary literal accepted by the exact-width
policy, the output length equals
`ceil((leading_zero_digits * bits_per_digit + value_bit_length) / 8)`, and
the count of fully-zero leading bytes agrees with
`leading_zero_digits * bits_per_digit` up to byte rounding: it is at least
that quantity rounded down to whole bytes and at most its round-up (the
partial byte shared with the value's top digits can add one more zero
byte). -/
theorem c2_exact_width_length (l : Lit) (hw : l.WF)
    (hb : l.base = .hex ∨ l.base = .binary) (bs : List Nat)
    (h : bytes2 l = .ok bs) :
    bytes l = .ok bs ∧
    bs.length = (l.lzd * (if l.base = .hex then 4 else 1) + bitLen l.val + 7) / 8 ∧
    (l.lzd * (if l.base = .hex then 4 else 1)) / 8 ≤ leadingZeroByteCount bs ∧
    leadingZeroByteCount bs ≤ (l.lzd * (if l.base = .hex then 4 else 1) + 7) / 8 := by
  have hreach : ¬(l.base.bitsPerDigit = none ∧ 0 < l.lzd) := by
    rcases hb with h' | h' <;> rw [h'] <;> simp [Base.bitsPerDigit]
  have hn : l.neg = false := by
    cases hnn : l.neg
    · rfl
    · exfalso
      rw [bytes2_classified l hw, if_neg hreach, bytes2Assemble_neg l hnn] at h
      simp at h
  have hlzb : l.lzd * (if l.base = .hex then 4 else 1) = l.lzb := by
    rcases hb with h' | h'
    · rw [lzb_hex l h', if_pos h']
    · rw [lzb_bin l h', h']
      simp
  rw [bytes2_ok_eq l hw hn hreach] at h
  injection h with h
  subst h
  have hzero : l.val = 0 → 1 ≤ l.lzb := fun hv => lzb_pos_of_val_zero l hw hv hreach
  rw [hlzb]
  refine ⟨?_, length_output hzero, ?_, ?_⟩
  · rw [← bytes2_eq_bytes_of_nonneg l hw hn, bytes2_ok_eq l hw hn hreach]
  · by_cases hv : l.val = 0
    · rw [hv, bitLen_zero, zeroCount_output_zero, length_toBytesBe_zero]
      have := hzero hv
      omega
    · rw [zeroCount_output_pos hv, length_toBytesBe hv]
      omega
  · by_cases hv : l.val = 0
    · rw [hv, bitLen_zero, zeroCount_output_zero, length_toBytesBe_zero]
      have := hzero hv
      omega
    · rw [zeroCount_output_pos hv, length_toBytesBe hv]
      omega

/-- Witness for C2 at the literal `0x0001`, whose output is `[0, 1]`. -/
theorem c2_exact_width_length_witness :
    bytes ⟨false, Base.hex, ['0', '0', '0', '1'], []⟩ = .ok [0, 1] ∧
    ([0, 1] : List Nat).length = 2 ∧
    1 ≤ leadingZeroByteCount [0, 1] ∧ leadingZeroByteCount [0, 1] ≤ 2 := by
  have hw : (⟨false, Base.hex, ['0', '0', '0', '1'], []⟩ : Lit).WF :=
    WF_nosuffix false Base.hex ['0', '0', '0', '1'] (by decide) (by decide)
  have hok : bytes2 ⟨false, Base.hex, ['0', '0', '0', '1'], []⟩ = .ok [0, 1] := by
    rw [bytes2_ok_eq _ hw rfl (by simp [Base.bitsPerDigit]),
      (by decide : (⟨false, Base.hex, ['0', '0', '0', '1'], []⟩ : Lit).val = 1),
      (by decide : (⟨false, Base.hex, ['0', '0', '0', '1'], []⟩ : Lit).lzb = 12),
      bitLen_one, toBytesBe_small (by norm_num) (by norm_num)]
    rfl
  have h := c2_exact_width_length _ hw (Or.inl rfl) [0, 1] hok
  obtain ⟨h1, h2, h3, h4⟩ := h
  rw [(by decide : (⟨false, Base.hex, ['0', '0', '0', '1'], []⟩ : Lit).lzd = 3)] at h3 h4
  simp only [if_pos] at h3 h4
  refine ⟨h1, rfl, ?_, ?_⟩
  · calc 1 = 3 * 4 / 8 := by norm_num
    _ ≤ leadingZeroByteCount [0, 1] := h3
  · calc leadingZeroByteCount [0, 1] ≤ (3 * 4 + 7) / 8 := h4
    _ = 2 := by norm_num

/-- Counterexample to claim C5 as stated: the decimal literal `0` has value
zero, yet the exact-width policy does not succeed with a single zero byte —
its sole digit counts as a leading zero digit of a base with no fixed
bits-per-digit ratio, so `bytes2` rejects it (and the restricted
minimal-width policy rejects its form as well). -/
theorem c5_zero_counterexample :
    (⟨false, Base.decimal, ['0'], []⟩ : Lit).val = 0 ∧
    bytes2 ⟨false, Base.decimal, ['0'], []⟩ = .err (lzMsg "decimal") ∧
    bytesmin ⟨false, Base.decimal, ['0'], []⟩ =
      .err "only positive hex (0x) and binary (0b) integer literals are supported" ∧
    ∀ bs : List Nat, bytes2 ⟨false, Base.decimal, ['0'], []⟩ ≠ .ok bs := by
  refine ⟨by decide, by decide, by decide, ?_⟩
  intro bs h
  rw [(by decide : bytes2 ⟨false, Base.decimal, ['0'], []⟩ = .err (lzMsg "decimal"))] at h
  simp at h

/-- Claim C5 as amended: a zero-valued literal is encoded as zero bytes only
where its spelling is representable: hex and binary zero literals succeed
under the exact-width policy with an all-zero output of
`ceil(leading_zero_bits / 8) ≥ 1` bytes and under both minimal-width variants
with exactly `[0]`; decimal and octal zero literals — whose digit bodies are
nothing but leading zeros — are instead rejected by the exact-width policy
and by the restricted minimal-width policy. -/
theorem c5_zero_amended (l : Lit) (hw : l.WF) (hn : l.neg = false)
    (hv : l.val = 0) :
    ((l.base = .hex ∨ l.base = .binary) →
      bytes2 l = .ok (List.replicate ((l.lzb + 7) / 8) 0) ∧
      1 ≤ (l.lzb + 7) / 8 ∧
      bytesmin l = .ok [0] ∧ bytesminUnrestricted l = .ok [0]) ∧
    ((l.base = .decimal ∨ l.base = .octal) →
      bytes2 l = .err (lzMsg l.base.formName) ∧
      bytesmin l =
        .err "only positive hex (0x) and binary (0b) integer literals are supported") := by
  constructor
  · intro hb
    have hreach : ¬(l.base.bitsPerDigit = none ∧ 0 < l.lzd) := by
      rcases hb with h' | h' <;> rw [h'] <;> simp [Base.bitsPerDigit]
    have hlzb : 1 ≤ l.lzb := lzb_pos_of_val_zero l hw hv hreach
    have hT : 1 ≤ (l.lzb + 7) / 8 := by omega
    refine ⟨?_, hT, ?_, ?_⟩
    · rw [bytes2_ok_eq l hw hn hreach, hv, bitLen_zero, toBytesBe_zero]
      congr 1
      calc List.replicate ((l.lzb + 0 + 7) / 8 - ([0] : List Nat).length) (0 : Nat) ++ [0]
          = List.replicate ((l.lzb + 7) / 8 - 1) 0 ++ [0] := by norm_num
        _ = List.replicate ((l.lzb + 7) / 8) 0 := replicate_append_zero hT
    · rw [bytesmin_hexbin l hw hb hn, hv, toBytesBe_zero]
    · unfold bytesminUnrestricted
      rw [hn, hv, toBytesBe_zero]
      rfl
  · intro hb
    have hbpd : l.base.bitsPerDigit = none := by
      rcases hb with h' | h' <;> rw [h'] <;> rfl
    have hlz : 0 < l.lzd := lzd_pos_of_val_zero l hw hv
    exact ⟨by rw [bytes2_classified l hw, if_pos ⟨hbpd, hlz⟩],
      bytesmin_err_decoct l hw hb⟩

/-- Witness for the amended C5 at the literal `0x0`. -/
theorem c5_zero_amended_witness :
    bytes2 ⟨false, Base.hex, ['0'], []⟩ = .ok [0] ∧
    bytesmin ⟨false, Base.hex, ['0'], []⟩ = .ok [0] ∧
    bytesminUnrestricted ⟨false, Base.hex, ['0'], []⟩ = .ok [0] := by
  have hw : (⟨false, Base.hex, ['0'], []⟩ : Lit).WF :=
    WF_nosuffix false Base.hex ['0'] (by decide) (by decide)
  have h := (c5_zero_amended ⟨false, Base.hex, ['0'], []⟩ hw rfl (by decide)).1 (Or.inl rfl)
  obtain ⟨h1, -, h3, h4⟩ := h
  refine ⟨?_, h3, h4⟩
  rw [h1, (by decide : ((⟨false, Base.hex, ['0'], []⟩ : Lit).lzb + 7) / 8 = 1)]
  rfl

/-- Claim C7: a non-negative decimal or octal literal with leading zero
digits is rejected by the exact-width policy but accepted, zeros discarded,
by the spec-modelled unrestricted minimal-width policy, which returns the
value's minimal big-endian bytes. -/
theorem c7_decoct_minimal_vs_exact (l : Lit) (hw : l.WF) (hn : l.neg = false)
    (hb : l.base = .decimal ∨ l.base = .octal) (hlz : 0 < l.lzd) :
    bytes2 l = .err (lzMsg l.base.formName) ∧
    bytesminUnrestricted l = .ok (toBytesBe l.val) := by
  have hbpd : l.base.bitsPerDigit = none := by
    rcases hb with h' | h' <;> rw [h'] <;> rfl
  refine ⟨by rw [bytes2_classified l hw, if_pos ⟨hbpd, hlz⟩], ?_⟩
  unfold bytesminUnrestricted
  rw [hn]
  rfl

/-- Witness for C7 at the literal `0o0377`: the exact-width policy errors,
the unrestricted minimal-width policy returns `[255]`. -/
theorem c7_decoct_minimal_vs_exact_witness :
    bytes2 ⟨false, Base.octal, ['0', '3', '7', '7'], []⟩ = .err (lzMsg "octal") ∧
    bytesminUnrestricted ⟨false, Base.octal, ['0', '3', '7', '7'], []⟩ = .ok [255] := by
  have h := c7_decoct_minimal_vs_exact ⟨false, Base.octal, ['0', '3', '7', '7'], []⟩
    (WF_nosuffix false Base.octal ['0', '3', '7', '7'] (by decide) (by decide))
    rfl (Or.inr rfl) (by decide)
  rw [(by decide : (⟨false, Base.octal, ['0', '3', '7', '7'], []⟩ : Lit).val = 255),
    toBytesBe_small (by norm_num) (by norm_num)] at h
  exact h

/-- Claim C8: whenever any of the encoders succeeds on a well-formed literal,
the returned byte sequence is non-empty. -/
theorem c8_success_nonempty (l : Lit) (hw : l.WF) (bs : List Nat)
    (h : bytes2 l = .ok bs ∨ bytes l = .ok bs ∨ bytesmin l = .ok bs ∨
      bytesminUnrestricted l = .ok bs) :
    1 ≤ bs.length := by
  rcases h with h | h | h | h
  · exact bytes2_ok_len l hw bs h
  · exact bytes_ok_len l hw bs h
  · have hbs := (bytesmin_ok_inv l hw bs h).2
    rw [hbs]
    exact List.length_pos.mpr (toBytesBe_ne_nil _)
  · have hbs := (bytesminUnrestricted_ok_inv l bs h).2
    rw [hbs]
    exact List.length_pos.mpr (toBytesBe_ne_nil _)

/-- Witness for C8 at the literal `0x1` under `bytesmin`. -/
theorem c8_success_nonempty_witness :
    1 ≤ ([1] : List Nat).length := by
  have hw : (⟨false, Base.hex, ['1'], []⟩ : Lit).WF :=
    WF_nosuffix false Base.hex ['1'] (by decide) (by decide)
  apply c8_success_nonempty ⟨false, Base.hex, ['1'], []⟩ hw
  right; right; left
  rw [bytesmin_hexbin _ hw (Or.inl rfl) rfl,
    (by decide : (⟨false, Base.hex, ['1'], []⟩ : Lit).val = 1),
    toBytesBe_small (by norm_num) (by norm_num)]

/-- Claim C9: on any well-formed non-negative literal that reaches the
exact-width assembly step (i.e. that is not rejected by the decimal/octal
leading-zero check), the minimal value bytes never outnumber the computed
total length, so the subtraction `total_len - int_len` cannot underflow and
neither implementation can panic. -/
theorem c9_assembly_in_bounds (l : Lit) (hw : l.WF) (hn : l.neg = false)
    (hreach : (l.base = .decimal ∨ l.base = .octal) → l.lzd = 0) :
    (toBytesBe l.val).length ≤ (l.lzb + bitLen l.val + 7) / 8 ∧
    (∀ m, bytes2 l ≠ .panic m) ∧ (∀ m, bytes l ≠ .panic m) := by
  have hreach' : ¬(l.base.bitsPerDigit = none ∧ 0 < l.lzd) := by
    rintro ⟨hbpd, hlz⟩
    rw [hreach (base_of_bpd_none l hbpd)] at hlz
    exact absurd hlz (by omega)
  exact ⟨intLen_le_totalLen fun hv => lzb_pos_of_val_zero l hw hv hreach',
    bytes2_no_panic l hw hn, bytes_no_panic l hw hn⟩

/-- Witness for C9 at the literal `0x1`. -/
theorem c9_assembly_in_bounds_witness :
    (toBytesBe (⟨false, Base.hex, ['1'], []⟩ : Lit).val).length ≤
      ((⟨false, Base.hex, ['1'], []⟩ : Lit).lzb +
        bitLen (⟨false, Base.hex, ['1'], []⟩ : Lit).val + 7) / 8 ∧
    (∀ m, bytes2 ⟨false, Base.hex, ['1'], []⟩ ≠ .panic m) ∧
    (∀ m, bytes ⟨false, Base.hex, ['1'], []⟩ ≠ .panic m) :=
  c9_assembly_in_bounds ⟨false, Base.hex, ['1'], []⟩
    (WF_nosuffix false Base.hex ['1'] (by decide) (by decide)) rfl
    (by rintro (h | h) <;> exact absurd h (by decide))

/-- Counterexample to claim C10 as stated: the two exact-width
implementations disagree on the negative literal `-0x1` — `bytes`
(src/bytes.rs) returns the classified negative-values error while `bytes2`
(src/lib.rs) panics in `.expect("valid integer")`. -/
theorem c10_not_equivalent :
    bytes2 ⟨true, Base.hex, ['1'], []⟩ ≠ bytes ⟨true, Base.hex, ['1'], []⟩ ∧
    bytes2 ⟨true, Base.hex, ['1'], []⟩ = .panic "valid integer" ∧
    bytes ⟨true, Base.hex, ['1'], []⟩ = .err "negative values unsupported" := by
  refine ⟨by decide, by decide, by decide⟩

/-- Claim C10 as amended: on every well-formed non-negative literal the two
exact-width implementations return identical results; they can differ only on
negative literals, where `bytes` reports the negative-values error while
`bytes2` either panics (no leading-zero error applies) or reports the
leading-zeros error first. -/
theorem c10_equivalent_nonneg (l : Lit) (hw : l.WF) (hn : l.neg = false) :
    bytes2 l = bytes l :=
  bytes2_eq_bytes_of_nonneg l hw hn

/-- Witness for the amended C10 at the literal `255`. -/
theorem c10_equivalent_nonneg_witness :
    bytes2 ⟨false, Base.decimal, ['2', '5', '5'], []⟩ =
      bytes ⟨false, Base.decimal, ['2', '5', '5'], []⟩ :=
  c10_equivalent_nonneg ⟨false, Base.decimal, ['2', '5', '5'], []⟩
    (WF_nosuffix false Base.decimal ['2', '5', '5'] (by decide) (by decide)) rfl
